/-
Verification of the Node-Editor state engine against its specification.

The definitions below are a shallow embedding of the editor's core:
  * `History`           — the undo/redo container of src/frontend/src/hooks/useHistory.js
  * `EditorState` etc.  — the graph data model of src/frontend/src/components/NodeEditor.jsx
  * `scanBracesAux` etc.— the variable scanner of src/frontend/src/nodes/TextNode.jsx

JavaScript numbers used as ids/counters are modelled as `Nat`; node positions
carry no arithmetic in the verified code paths and are modelled as integer
pairs; `JSON.stringify`-equality on the plain-data state records coincides with
structural equality and is modelled by `DecidableEq`.
-/
import Mathlib

/-! ## Decimal representation

`addNode` builds node ids with a JS template literal, i.e. the decimal string
of the counter; in Lean that conversion is `Nat.repr`.  We prove `Nat.repr`
injective via a round trip through a structural model of its digit list. -/

/-- Structural model of the digit list produced by `Nat.toDigitsCore` base 10. -/
def natChars (n : Nat) : List Char :=
  if _h : n < 10 then [Nat.digitChar n]
  else natChars (n / 10) ++ [Nat.digitChar (n % 10)]
decreasing_by exact Nat.div_lt_self (by omega) (by omega)

/-- Numeric value of a digit character, used for the round trip. -/
def digitVal (c : Char) : Nat := c.toNat - 48

/-- Left fold reading a digit list back into a number. -/
def unDigits (acc : Nat) (l : List Char) : Nat :=
  l.foldl (fun a c => a * 10 + digitVal c) acc

theorem digitVal_digitChar {d : Nat} (h : d < 10) : digitVal (Nat.digitChar d) = d := by
  interval_cases d <;> rfl

theorem unDigits_append (acc : Nat) (l1 l2 : List Char) :
    unDigits acc (l1 ++ l2) = unDigits (unDigits acc l1) l2 := by
  simp [unDigits, List.foldl_append]

theorem unDigits_natChars (n : Nat) : unDigits 0 (natChars n) = n := by
  induction n using Nat.strong_induction_on with
  | _ n ih =>
    rw [natChars]
    by_cases h : n < 10
    · simp [h, unDigits, digitVal_digitChar h]
    · have hdiv : n / 10 < n := Nat.div_lt_self (by omega) (by omega)
      simp only [h, dite_false, unDigits_append, ih _ hdiv]
      have : unDigits (n / 10) [Nat.digitChar (n % 10)] = (n / 10) * 10 + n % 10 := by
        simp [unDigits, digitVal_digitChar (Nat.mod_lt n (by omega))]
      rw [this]
      omega

theorem toDigitsCore_eq_natChars (fuel n : Nat) (ds : List Char) (hfuel : n < fuel) :
    Nat.toDigitsCore 10 fuel n ds = natChars n ++ ds := by
  induction fuel generalizing n ds with
  | zero => omega
  | succ fuel ih =>
    rw [Nat.toDigitsCore]
    by_cases h10 : n < 10
    · have : n / 10 = 0 := Nat.div_eq_of_lt h10
      rw [natChars]
      simp [this, h10, Nat.mod_eq_of_lt h10]
    · have hne : ¬ n / 10 = 0 := by
        intro hz
        exact h10 (by omega : n < 10)
      have hlt : n / 10 < fuel := by
        have := Nat.div_lt_self (n := n) (by omega) (by omega : 1 < 10)
        omega
      simp only [hne, if_false]
      rw [ih _ _ hlt]
      conv_rhs => rw [natChars]
      simp [h10, List.append_assoc]

theorem natRepr_eq (n : Nat) : Nat.repr n = (natChars n).asString := by
  unfold Nat.repr Nat.toDigits
  rw [toDigitsCore_eq_natChars (n + 1) n [] (Nat.lt_succ_self n), List.append_nil]

theorem natRepr_injective {m n : Nat} (h : Nat.repr m = Nat.repr n) : m = n := by
  rw [natRepr_eq, natRepr_eq] at h
  have hl : natChars m = natChars n := by
    have := congrArg String.data h
    simpa [List.asString] using this
  calc m = unDigits 0 (natChars m) := (unDigits_natChars m).symm
    _ = unDigits 0 (natChars n) := by rw [hl]
    _ = n := unDigits_natChars n

/-! ## The history container (src/frontend/src/hooks/useHistory.js)

`useHistory` keeps `history : array` and `currentIndex : number`.  The
`isApplyingHistory` ref only suppresses `setState` calls fired synchronously in
the same tick as an undo/redo (it is reset on a zero-delay timeout); distinct
user operations therefore always see it cleared, and the operation-level
semantics below model the flag as cleared. -/

structure History (σ : Type) where
  entries : List σ
  currentIndex : Nat
deriving Repr, DecidableEq

namespace History

variable {σ : Type} [DecidableEq σ]

/-- The value `history[currentIndex]`; `none` plays JS `undefined` when out of range. -/
def state (h : History σ) : Option σ :=
  h.entries.get? h.currentIndex

/-- The getter `canUndo: currentIndex > 0`. -/
def canUndo (h : History σ) : Bool :=
  decide (0 < h.currentIndex)

/-- The getter `canRedo: currentIndex < history.length - 1`. -/
def canRedo (h : History σ) : Bool :=
  decide (h.currentIndex < h.entries.length - 1)

/-- The getter `historySize: history.length`. -/
def historySize (h : History σ) : Nat :=
  h.entries.length

/-- The "remove any future history" step of `setState`:
`if (currentIndex < newHistory.length - 1) newHistory.splice(currentIndex + 1)`. -/
def truncated (h : History σ) : List σ :=
  if h.currentIndex < h.entries.length - 1 then
    h.entries.take (h.currentIndex + 1)
  else
    h.entries

/-- The push-and-cap tail of `setState`: `newHistory.push(actualNewState)`,
then if `newHistory.length > maxHistorySize` a `shift()` evicting the oldest
entry; `currentIndex` is set to the last index either way. -/
def pushEntry (maxHistorySize : Nat) (newHistory : List σ) (v : σ) : History σ :=
  let pushed := newHistory ++ [v]
  if maxHistorySize < pushed.length then
    { entries := pushed.drop 1, currentIndex := pushed.length - 2 }
  else
    { entries := pushed, currentIndex := pushed.length - 1 }

/-- The `setState` call with a plain value.  The deep-equality guard is the
`JSON.stringify` comparison of the code; on the plain-data states used here it
is structural equality.  When the strings are equal the code returns
`prevHistory` unchanged and never touches `currentIndex`. -/
def setState (maxHistorySize : Nat) (h : History σ) (v : σ) : History σ :=
  let newHistory := h.truncated
  match newHistory.get? h.currentIndex with
  | none => pushEntry maxHistorySize newHistory v
  | some cur => if v = cur then h else pushEntry maxHistorySize newHistory v

/-- The `setState` call with an updater function (`typeof newState === 'function'`),
applied to `newHistory[currentIndex]`.  A well-formed history always has
`currentIndex` in range; the `none` branch is unreachable then. -/
def setStateF (maxHistorySize : Nat) (h : History σ) (f : σ → σ) : History σ :=
  let newHistory := h.truncated
  match newHistory.get? h.currentIndex with
  | none => h
  | some cur =>
    let v := f cur
    if v = cur then h else pushEntry maxHistorySize newHistory v

/-- The `undo` call: decrement `currentIndex` when positive, reporting success. -/
def undo (h : History σ) : Bool × History σ :=
  if 0 < h.currentIndex then
    (true, { h with currentIndex := h.currentIndex - 1 })
  else
    (false, h)

/-- The `redo` call: increment `currentIndex` when below the last index. -/
def redo (h : History σ) : Bool × History σ :=
  if h.currentIndex < h.entries.length - 1 then
    (true, { h with currentIndex := h.currentIndex + 1 })
  else
    (false, h)

/-- The `clearHistory` call: reset to a single entry holding the initial state. -/
def clearHistory (initial : σ) (_h : History σ) : History σ :=
  { entries := [initial], currentIndex := 0 }

/-- The canonical state sits at the last index. -/
def atTip (h : History σ) : Prop :=
  h.currentIndex + 1 = h.entries.length

end History

/-- A client call against the history container. -/
inductive HistOp (σ : Type) where
  | set (v : σ)
  | setF (f : σ → σ)
  | undo
  | redo
  | clear

/-- One client call; `init` is the hook's construction-time initial state,
which `clearHistory` restores. -/
def applyOp {σ : Type} [DecidableEq σ] (maxHistorySize : Nat) (init : σ)
    (h : History σ) : HistOp σ → History σ
  | .set v => h.setState maxHistorySize v
  | .setF f => h.setStateF maxHistorySize f
  | .undo => (h.undo).2
  | .redo => (h.redo).2
  | .clear => History.clearHistory init h

/-- A session: the calls applied in order. -/
def applyOps {σ : Type} [DecidableEq σ] (maxHistorySize : Nat) (init : σ)
    (h : History σ) (ops : List (HistOp σ)) : History σ :=
  ops.foldl (applyOp maxHistorySize init) h

/-! ## The graph data model (src/frontend/src/components/NodeEditor.jsx) -/

/-- A canvas coordinate pair.  The verified code paths only carry positions
around and compare them; no arithmetic on them is modelled. -/
structure Pos where
  x : Int
  y : Int
deriving Repr, DecidableEq

/-- A graph node; `data` is the type-specific payload, opaque to the core and
modelled as a key/value list (values kept as their literal texts). -/
structure Node where
  id : String
  ntype : String
  position : Pos
  data : List (String × String)
deriving Repr, DecidableEq

/-- A graph edge. -/
structure Edge where
  id : String
  source : String
  target : String
  sourceHandle : String
  targetHandle : String
deriving Repr, DecidableEq

/-- The value held by the history container. -/
structure EditorState where
  nodes : List Node
  edges : List Edge
  nodeIdCounter : Nat
deriving Repr, DecidableEq

/-- The `initialNodes` list of NodeEditor.jsx. -/
def initialNodes : List Node :=
  [ { id := "1", ntype := "inputNode", position := ⟨100, 100⟩,
      data := [("label", "Input Node")] },
    { id := "2", ntype := "textNode", position := ⟨400, 100⟩,
      data := [("text", "Hello {{input}}!")] },
    { id := "3", ntype := "outputNode", position := ⟨700, 100⟩,
      data := [("label", "Output Node")] } ]

/-- The `initialEdges` list of NodeEditor.jsx. -/
def initialEdges : List Edge :=
  [ { id := "e1-2", source := "1", target := "2",
      sourceHandle := "output", targetHandle := "input" },
    { id := "e2-3", source := "2", target := "3",
      sourceHandle := "output", targetHandle := "input" } ]

/-- The `initialState` value of NodeEditor.jsx. -/
def initialState : EditorState :=
  { nodes := initialNodes, edges := initialEdges, nodeIdCounter := 4 }

/-- The `getDefaultNodeData` table of NodeEditor.jsx (numeric literals kept as text). -/
def getDefaultNodeData (t : String) : List (String × String) :=
  if t = "inputNode" then [("label", "Input Node")]
  else if t = "outputNode" then [("label", "Output Node")]
  else if t = "llmNode" then [("model", "gpt-3.5-turbo"), ("temperature", "0.7")]
  else if t = "textNode" then [("text", "Enter your text here...")]
  else if t = "filterNode" then [("condition", "contains"), ("value", "")]
  else if t = "transformNode" then [("operation", "uppercase")]
  else if t = "aggregateNode" then [("operation", "sum")]
  else if t = "conditionalNode" then [("condition", "if-then-else")]
  else if t = "delayNode" then [("delay", "1000")]
  else []

/-- The id of `onConnect`'s new edge:
``e${params.source}-${params.target}-${Date.now()}``; `now` is the millisecond
clock reading at the call. -/
def makeEdgeId (source target : String) (now : Nat) : String :=
  "e" ++ source ++ "-" ++ target ++ "-" ++ Nat.repr now

/-- The connection parameters ReactFlow hands to `onConnect`. -/
structure ConnectParams where
  source : String
  sourceHandle : String
  target : String
  targetHandle : String
deriving Repr, DecidableEq

/-- The `onConnect` handler: append `{...params, id: ...}` to `edges` (the history write of
`updateEditorState` leaves `nodes`/`nodeIdCounter` untouched). -/
def onConnect (st : EditorState) (params : ConnectParams) (now : Nat) : EditorState :=
  let newEdge : Edge :=
    { id := makeEdgeId params.source params.target now,
      source := params.source, target := params.target,
      sourceHandle := params.sourceHandle, targetHandle := params.targetHandle }
  { st with edges := st.edges ++ [newEdge] }

/-- The `deleteSelectedNodes` handler, with the selected ids (read off the view layer's
`node.selected` flags) as input: when the selection is non-empty, drop the
selected nodes and every edge whose source or target is selected. -/
def deleteSelectedNodes (selectedNodeIds : List String) (st : EditorState) : EditorState :=
  if selectedNodeIds.isEmpty then st
  else
    { st with
      nodes := st.nodes.filter (fun n => !(selectedNodeIds.contains n.id)),
      edges := st.edges.filter (fun e =>
        !(selectedNodeIds.contains e.source) && !(selectedNodeIds.contains e.target)) }

/-- NodeEditor.jsx uses `useHistory(initialState, 100)`. -/
def editorMaxHistorySize : Nat := 100

/-- The history as NodeEditor.jsx constructs it. -/
def initHistory : History EditorState :=
  { entries := [initialState], currentIndex := 0 }

/-- A user operation of the session considered by the id-uniqueness claim. -/
inductive EdOp where
  | addNode (ntype : String) (position : Pos)
  | undo
  | redo
deriving Repr, DecidableEq

/-- One user operation.  `addNode` reads the current state, builds
`newNode` with `id = String(nodeIdCounter)` and writes
`{nodes: [...nodes, newNode], nodeIdCounter: nodeIdCounter + 1}` through
`updateEditorState`, whose updater merges those two fields into the previous
state.  The second component lists the node ids this operation produced. -/
def stepOp (h : History EditorState) : EdOp → History EditorState × List String
  | .addNode t p =>
    match h.state with
    | none => (h, [])
    | some st =>
      let newNode : Node :=
        { id := Nat.repr st.nodeIdCounter, ntype := t, position := p,
          data := getDefaultNodeData t }
      (h.setStateF editorMaxHistorySize (fun prev =>
        { prev with
          nodes := st.nodes ++ [newNode],
          nodeIdCounter := st.nodeIdCounter + 1 }),
       [Nat.repr st.nodeIdCounter])
  | .undo => ((h.undo).2, [])
  | .redo => ((h.redo).2, [])

/-- A session of user operations, collecting every id `addNode` produced. -/
def runOps (h : History EditorState) : List EdOp → History EditorState × List String
  | [] => (h, [])
  | op :: ops =>
    let (h', ids) := stepOp h op
    let (h'', ids') := runOps h' ops
    (h'', ids ++ ids')

/-! ## The drag-commit protocol (handleNodesChange of NodeEditor.jsx) -/

/-- A ReactFlow position-change event for one node: intermediate drag frames
carry `dragging = true`, the release carries `dragging = false`. -/
structure PosChange where
  nodeId : String
  position : Pos
  dragging : Bool
deriving Repr, DecidableEq

/-- How the view layer applies a position change to its own node list. -/
def applyPosChange (ns : List Node) (c : PosChange) : List Node :=
  ns.map (fun n => if n.id = c.nodeId then { n with position := c.position } else n)

/-- Canonical state (history) plus the view layer's node mirror.  The
`isSyncingState` flag is raised and lowered inside every event below and so is
not part of the cross-event state. -/
structure EditorSys where
  hist : History EditorState
  rfNodes : List Node
deriving Repr, DecidableEq

/-- The `handleNodesChange` handler: apply the changes to the mirror; when one of them has
`dragging === false`, the zero-delay timeout then reads the settled mirror and
commits `{nodes: currentNodes}` to history (single-threaded, so the timeout
runs before the next gesture event); afterwards the canonical-to-mirror sync
effect overwrites the mirror with the just-committed node list. -/
def handleNodesChange (sys : EditorSys) (changes : List PosChange) : EditorSys :=
  let rf := changes.foldl applyPosChange sys.rfNodes
  if changes.any (fun c => !c.dragging) then
    { hist := sys.hist.setStateF editorMaxHistorySize (fun prev => { prev with nodes := rf }),
      rfNodes := rf }
  else
    { sys with rfNodes := rf }

/-- The intermediate frames of a drag gesture, one event per frame. -/
def processFrames (sys : EditorSys) (frames : List PosChange) : EditorSys :=
  frames.foldl (fun s c => handleNodesChange s [c]) sys

/-! ## The keyboard handler (onKeyDown of NodeEditor.jsx) -/

/-- The fields of a keydown event the handler reads. -/
structure KeyEvent where
  key : String
  shiftKey : Bool
  ctrlKey : Bool
  metaKey : Bool
  targetTagName : String
  targetContentEditable : String
deriving Repr, DecidableEq

/-- The `isTyping` test: the event target is an INPUT, a TEXTAREA, or contentEditable. -/
def isTyping (e : KeyEvent) : Bool :=
  e.targetTagName = "INPUT" || e.targetTagName = "TEXTAREA" ||
    e.targetContentEditable = "true"

/-- The effect of one `onKeyDown` run on the `showKeyboardHelp` flag.  The
undo/redo branches return early; a Ctrl/Cmd chord on any other key falls
through.  The delete branch and the clear-selection arm of Escape leave the
flag alone; Escape with the overlay open closes it. -/
def helpAfterKeyDown (e : KeyEvent) (showKeyboardHelp : Bool) : Bool :=
  let isCtrlOrCmd := e.ctrlKey || e.metaKey
  if isCtrlOrCmd && e.key = "z" && !e.shiftKey then showKeyboardHelp
  else if isCtrlOrCmd && (e.key = "y" || (e.key = "z" && e.shiftKey)) then showKeyboardHelp
  else if isTyping e then showKeyboardHelp
  else if e.key = "?" && !e.shiftKey then !showKeyboardHelp
  else if e.key = "Delete" || e.key = "Backspace" then showKeyboardHelp
  else if e.key = "Escape" then (if showKeyboardHelp then false else showKeyboardHelp)
  else showKeyboardHelp

/-! ## Variable scanning (src/frontend/src/nodes/TextNode.jsx)

The text node scans its text with `/\{\{([^\x7b?}]+)\}\}/g`-style matching:
two opening braces, a non-empty capture of characters other than a closing
brace, two closing braces.  On a failed match attempt the regex engine restarts
one character further; after a successful match it continues after the match.
The fuel argument only bounds the recursion; every step consumes at least one
character, so `cs.length` fuel is always enough. -/

/-- All raw (untrimmed) captures, left to right. -/
def scanBracesAux : Nat → List Char → List (List Char)
  | 0, _ => []
  | fuel + 1, cs =>
    match cs with
    | '{' :: '{' :: rest =>
      let name := rest.takeWhile (fun c => !(c = '}'))
      (match rest.dropWhile (fun c => !(c = '}')) with
       | '}' :: '}' :: tail =>
         if name.isEmpty then scanBracesAux fuel ('{' :: rest)
         else name :: scanBracesAux fuel tail
       | _ => scanBracesAux fuel ('{' :: rest))
    | _ :: rest => scanBracesAux fuel rest
    | [] => []

/-- The raw capture list of a text. -/
def rawCaptures (text : String) : List String :=
  (scanBracesAux text.data.length text.data).map (fun l => l.asString)

/-- JS `String.prototype.trim` on the model's whitespace notion. -/
def trimString (s : String) : String :=
  ((s.data.dropWhile Char.isWhitespace).reverse.dropWhile Char.isWhitespace).reverse.asString

/-- The loop body of TextNode's `variables` memo: trim the capture, keep it
when non-empty (JS truthiness of a string) and not already collected.
(`variables`/`matches` are reserved words in Lean, hence the renaming.) -/
def variablesStep (ms : List String) (capture : String) : List String :=
  let varName := trimString capture
  if varName ≠ "" ∧ ¬ ms.contains varName then ms ++ [varName] else ms

/-- TextNode's `variables`: the while loop over the regex matches. -/
def textVariables (text : String) : List String :=
  (rawCaptures text).foldl variablesStep []

/-- A connection point as TextNode builds it (presentation fields omitted). -/
structure NodeHandle where
  id : String
  htype : String
  position : String
deriving Repr, DecidableEq

/-- TextNode's `handles`: one target handle per variable, then the fixed
source handle `output`. -/
def textNodeHandles (text : String) : List NodeHandle :=
  (textVariables text).map (fun v => { id := v, htype := "target", position := "Left" }) ++
    [{ id := "output", htype := "source", position := "Right" }]

/-- The handle ids, in order. -/
def textNodeHandleIds (text : String) : List String :=
  (textNodeHandles text).map NodeHandle.id

/-! Reference definition for the handle-derivation claim, following the
spec's words: trim every scanned name, discard empty ones, de-duplicate
keeping first-seen order, and append the fixed output id last. -/

/-- First-seen de-duplication, as the spec words it. -/
def dedupFirstSeen (l : List String) : List String :=
  l.foldl (fun acc v => if ¬ acc.contains v then acc ++ [v] else acc) []

/-- Modelled from the spec: the reference handle-id list of §4.3 —
"collect the first-seen, de-duplicated ordered list of distinct names …
plus one fixed output handle `id = "output"` always appended last", with
empty-after-trim names discarded. -/
def specHandleIds (text : String) : List String :=
  dedupFirstSeen (((rawCaptures text).map trimString).filter (fun v => v ≠ "")) ++ ["output"]

/-! ## Helper lemmas about the history container -/

theorem History.truncated_get_self {σ : Type} {h : History σ} {cur : σ}
    (hcur : h.entries.get? h.currentIndex = some cur) :
    h.truncated.get? h.currentIndex = some cur := by
  unfold History.truncated
  split
  · simp only [List.get?_eq_getElem?] at hcur ⊢
    exact (List.getElem?_take_of_lt (Nat.lt_succ_self _)).trans hcur
  · exact hcur

theorem History.truncated_of_atTip {σ : Type} {h : History σ} (ht : h.atTip) :
    h.truncated = h.entries := by
  unfold History.atTip at ht
  unfold History.truncated
  rw [if_neg]
  omega

theorem History.pushEntry_of_le {σ : Type} (m : Nat) (l : List σ) (v : σ)
    (hlen : l.length + 1 ≤ m) :
    History.pushEntry m l v = { entries := l ++ [v], currentIndex := l.length } := by
  unfold History.pushEntry
  rw [if_neg (by simp; omega)]
  simp

theorem History.pushEntry_of_gt {σ : Type} (m : Nat) (l : List σ) (v : σ)
    (hlen : m < l.length + 1) :
    History.pushEntry m l v =
      { entries := (l ++ [v]).drop 1, currentIndex := l.length - 1 } := by
  unfold History.pushEntry
  rw [if_pos (by simp; omega)]
  simp

/-- C5: `setState` with a candidate value — or an updater producing a value —
deep-equal to the entry at `currentIndex` is a no-op: the whole history record
(entries, size and `currentIndex`) is unchanged. -/
theorem useHistory.setState_noop_on_equal {σ : Type} [DecidableEq σ]
    (maxHistorySize : Nat) (h : History σ) (cur : σ) (f : σ → σ)
    (hcur : h.entries.get? h.currentIndex = some cur) (hf : f cur = cur) :
    h.setState maxHistorySize cur = h ∧ h.setStateF maxHistorySize f = h := by
  have htr := History.truncated_get_self hcur
  simp only [List.get?_eq_getElem?] at htr
  constructor
  · unfold History.setState
    simp [htr]
  · unfold History.setStateF
    simp [htr, hf]

/-- Closed instance of `useHistory.setState_noop_on_equal` at a two-entry
history whose current entry is `1`. -/
theorem useHistory.setState_noop_on_equal_witness :
    (⟨[0, 1], 1⟩ : History Nat).setState 50 1 = ⟨[0, 1], 1⟩ ∧
    (⟨[0, 1], 1⟩ : History Nat).setStateF 50 id = ⟨[0, 1], 1⟩ :=
  useHistory.setState_noop_on_equal 50 ⟨[0, 1], 1⟩ 1 id rfl rfl

/-- C6: from any in-range history position where undo succeeds
(`currentIndex > 0`), `undo` then `redo` both report success and the history —
entries, `currentIndex`, hence the observable state — is restored exactly. -/
theorem useHistory.undo_redo_roundtrip {σ : Type} (h : History σ)
    (hpos : 0 < h.currentIndex) (hlen : h.currentIndex < h.entries.length) :
    (h.undo).1 = true ∧ ((h.undo).2.redo).1 = true ∧ ((h.undo).2.redo).2 = h ∧
    ((h.undo).2.redo).2.state = h.state := by
  obtain ⟨entries, idx⟩ := h
  simp only [History.currentIndex] at hpos hlen
  cases idx with
  | zero => exact absurd hpos (by simp)
  | succ k =>
    have hred : k < entries.length - 1 := by omega
    simp [History.undo, History.redo, History.state, hred]

/-- Closed instance of `useHistory.undo_redo_roundtrip` at a two-entry
history sitting at index 1. -/
theorem useHistory.undo_redo_roundtrip_witness :
    ((⟨[0, 1], 1⟩ : History Nat).undo).1 = true ∧
    (((⟨[0, 1], 1⟩ : History Nat).undo).2.redo).1 = true ∧
    (((⟨[0, 1], 1⟩ : History Nat).undo).2.redo).2 = ⟨[0, 1], 1⟩ ∧
    (((⟨[0, 1], 1⟩ : History Nat).undo).2.redo).2.state = (⟨[0, 1], 1⟩ : History Nat).state :=
  useHistory.undo_redo_roundtrip ⟨[0, 1], 1⟩ (by decide) (by decide)

/-- C4: `setState` with a genuinely new value from a non-tip position discards
every entry after the old `currentIndex`, appends the candidate, moves
`currentIndex` to the new tip, and leaves nothing to redo. -/
theorem useHistory.setState_discards_future {σ : Type} [DecidableEq σ]
    (maxHistorySize : Nat) (h : History σ) (v cur : σ)
    (hmid : h.currentIndex < h.entries.length - 1)
    (hcap : h.entries.length ≤ maxHistorySize)
    (hcur : h.entries.get? h.currentIndex = some cur)
    (hne : v ≠ cur) :
    (h.setState maxHistorySize v).entries = h.entries.take (h.currentIndex + 1) ++ [v] ∧
    (h.setState maxHistorySize v).currentIndex = h.currentIndex + 1 ∧
    (h.setState maxHistorySize v).currentIndex =
      (h.setState maxHistorySize v).entries.length - 1 ∧
    (h.setState maxHistorySize v).canRedo = false := by
  have htr := History.truncated_get_self hcur
  have htrdef : h.truncated = h.entries.take (h.currentIndex + 1) := by
    unfold History.truncated
    rw [if_pos hmid]
  have hlentr : (h.entries.take (h.currentIndex + 1)).length = h.currentIndex + 1 := by
    rw [List.length_take]
    omega
  have hset : h.setState maxHistorySize v =
      { entries := h.entries.take (h.currentIndex + 1) ++ [v],
        currentIndex := h.currentIndex + 1 } := by
    unfold History.setState
    simp only [htr, if_neg hne]
    rw [htrdef, History.pushEntry_of_le _ _ _ (by omega), hlentr]
  rw [hset]
  refine ⟨rfl, rfl, ?_, ?_⟩
  · simp [hlentr]
  · simp [History.canRedo, hlentr]

/-- Closed instance of `useHistory.setState_discards_future`: a three-entry
history at index 0 pushed with a new value collapses to two entries. -/
theorem useHistory.setState_discards_future_witness :
    ((⟨[0, 1, 2], 0⟩ : History Nat).setState 50 7).entries = [0, 7] ∧
    ((⟨[0, 1, 2], 0⟩ : History Nat).setState 50 7).currentIndex = 0 + 1 ∧
    ((⟨[0, 1, 2], 0⟩ : History Nat).setState 50 7).currentIndex =
      ((⟨[0, 1, 2], 0⟩ : History Nat).setState 50 7).entries.length - 1 ∧
    ((⟨[0, 1, 2], 0⟩ : History Nat).setState 50 7).canRedo = false :=
  useHistory.setState_discards_future 50 ⟨[0, 1, 2], 0⟩ 7 0
    (by decide) (by decide) rfl (by decide)

/-- C9: deleting a non-empty selection removes exactly the nodes whose id is
selected and exactly the edges with a selected endpoint, keeps every other
node and edge, leaves the counter alone; and on the A→C, B→D, C→D example
graph, removing {A, B} deletes precisely the two edges touching A or B. -/
theorem nodeEditor.deleteSelectedNodes_spec (sel : List String) (st : EditorState)
    (hsel : sel ≠ []) :
    (∀ n : Node, n ∈ (deleteSelectedNodes sel st).nodes ↔
       n ∈ st.nodes ∧ sel.contains n.id = false) ∧
    (∀ e : Edge, e ∈ (deleteSelectedNodes sel st).edges ↔
       e ∈ st.edges ∧ sel.contains e.source = false ∧ sel.contains e.target = false) ∧
    (deleteSelectedNodes sel st).nodeIdCounter = st.nodeIdCounter ∧
    (deleteSelectedNodes ["A", "B"]
        { nodes := [⟨"A", "inputNode", ⟨0, 0⟩, []⟩, ⟨"B", "inputNode", ⟨0, 1⟩, []⟩,
                    ⟨"C", "outputNode", ⟨1, 0⟩, []⟩, ⟨"D", "outputNode", ⟨1, 1⟩, []⟩],
          edges := [⟨"eAC", "A", "C", "output", "input"⟩,
                    ⟨"eBD", "B", "D", "output", "input"⟩,
                    ⟨"eCD", "C", "D", "output", "input"⟩],
          nodeIdCounter := 5 }).edges = [⟨"eCD", "C", "D", "output", "input"⟩] ∧
    (deleteSelectedNodes ["A", "B"]
        { nodes := [⟨"A", "inputNode", ⟨0, 0⟩, []⟩, ⟨"B", "inputNode", ⟨0, 1⟩, []⟩,
                    ⟨"C", "outputNode", ⟨1, 0⟩, []⟩, ⟨"D", "outputNode", ⟨1, 1⟩, []⟩],
          edges := [⟨"eAC", "A", "C", "output", "input"⟩,
                    ⟨"eBD", "B", "D", "output", "input"⟩,
                    ⟨"eCD", "C", "D", "output", "input"⟩],
          nodeIdCounter := 5 }).nodes =
      [⟨"C", "outputNode", ⟨1, 0⟩, []⟩, ⟨"D", "outputNode", ⟨1, 1⟩, []⟩] := by
  have hne : sel.isEmpty = false := by
    cases sel with
    | nil => exact absurd rfl hsel
    | cons a l => rfl
  refine ⟨?_, ?_, ?_, by decide, by decide⟩
  · intro n
    unfold deleteSelectedNodes
    rw [if_neg (by simp [hne])]
    simp [List.mem_filter]
  · intro e
    unfold deleteSelectedNodes
    rw [if_neg (by simp [hne])]
    simp [List.mem_filter]
  · unfold deleteSelectedNodes
    rw [if_neg (by simp [hne])]

/-- Closed instance of `nodeEditor.deleteSelectedNodes_spec` at the example
graph, checking the membership characterization on the C→D edge. -/
theorem nodeEditor.deleteSelectedNodes_spec_witness :
    (⟨"eCD", "C", "D", "output", "input"⟩ : Edge) ∈
      (deleteSelectedNodes ["A", "B"]
        { nodes := [⟨"A", "inputNode", ⟨0, 0⟩, []⟩, ⟨"B", "inputNode", ⟨0, 1⟩, []⟩,
                    ⟨"C", "outputNode", ⟨1, 0⟩, []⟩, ⟨"D", "outputNode", ⟨1, 1⟩, []⟩],
          edges := [⟨"eAC", "A", "C", "output", "input"⟩,
                    ⟨"eBD", "B", "D", "output", "input"⟩,
                    ⟨"eCD", "C", "D", "output", "input"⟩],
          nodeIdCounter := 5 }).edges ↔
      (⟨"eCD", "C", "D", "output", "input"⟩ : Edge) ∈
        ([⟨"eAC", "A", "C", "output", "input"⟩,
          ⟨"eBD", "B", "D", "output", "input"⟩,
          ⟨"eCD", "C", "D", "output", "input"⟩] : List Edge) ∧
      (["A", "B"] : List String).contains "C" = false ∧
      (["A", "B"] : List String).contains "D" = false :=
  (nodeEditor.deleteSelectedNodes_spec ["A", "B"] _ (by decide)).2.1
    ⟨"eCD", "C", "D", "output", "input"⟩

/-- C2 (code bug): two `onConnect` calls between the same endpoints in the
same millisecond both generate the id `e1-2-1000`, so the edge ids of the
resulting state are not unique, contrary to the `// Ensure unique ID`
intent and to the claim. -/
theorem nodeEditor.onConnect_same_millisecond_id_collision :
    ((onConnect (onConnect initialState ⟨"1", "output", "2", "input"⟩ 1000)
        ⟨"1", "output", "2", "input"⟩ 1000).edges.map Edge.id) =
      ["e1-2", "e2-3", "e1-2-1000", "e1-2-1000"] ∧
    ¬ ((onConnect (onConnect initialState ⟨"1", "output", "2", "input"⟩ 1000)
        ⟨"1", "output", "2", "input"⟩ 1000).edges.map Edge.id).Nodup := by
  constructor
  · decide
  · decide

/-- C10: the keydown handler inverts the help-overlay flag in every state
exactly when the key is `?` with `shiftKey` false outside an editable target;
and any `?` keydown with `shiftKey` true leaves the flag unchanged. -/
theorem nodeEditor.help_toggle_only_on_unshifted_question (e : KeyEvent) (v : Bool) :
    ((∀ w : Bool, helpAfterKeyDown e w = !w) ↔
      (e.key = "?" ∧ e.shiftKey = false ∧ isTyping e = false)) ∧
    (e.key = "?" → e.shiftKey = true → helpAfterKeyDown e v = v) := by
  constructor
  · constructor
    · intro htog
      have h0 := htog false
      by_cases hk : e.key = "?"
      · refine ⟨hk, ?_, ?_⟩
        · by_cases hs : e.shiftKey = true
          · exfalso
            simp [helpAfterKeyDown, hk, hs, isTyping] at h0
          · simp at hs
            exact hs
        · by_cases ht : isTyping e = true
          · exfalso
            simp [helpAfterKeyDown, hk, ht] at h0
          · simp at ht
            exact ht
      · exfalso
        simp [helpAfterKeyDown, hk] at h0
    · rintro ⟨hk, hs, ht⟩ w
      simp [helpAfterKeyDown, hk, hs, ht]
  · intro hk hs
    simp [helpAfterKeyDown, hk, hs]

/-- Closed instance of `nodeEditor.help_toggle_only_on_unshifted_question`: a
shifted `?` on a plain target leaves an open overlay open. -/
theorem nodeEditor.help_toggle_witness :
    helpAfterKeyDown ⟨"?", true, false, false, "DIV", "false"⟩ true = true :=
  (nodeEditor.help_toggle_only_on_unshifted_question
    ⟨"?", true, false, false, "DIV", "false"⟩ true).2 rfl rfl

/-- The while-loop accumulation of TextNode's `variables` equals the
trim-filter-dedup pipeline of the spec, at any accumulator. -/
theorem variablesStep_fold_eq (raws : List String) (acc : List String) :
    raws.foldl variablesStep acc =
      ((raws.map trimString).filter (fun v => v ≠ "")).foldl
        (fun a v => if ¬ a.contains v then a ++ [v] else a) acc := by
  induction raws generalizing acc with
  | nil => rfl
  | cons r rs ih =>
    simp only [List.foldl_cons, List.map_cons]
    by_cases he : trimString r = ""
    · have hstep : variablesStep acc r = acc := by
        unfold variablesStep
        simp [he]
      rw [hstep]
      have hfil : ((trimString r :: rs.map trimString).filter (fun v => v ≠ "")) =
          (rs.map trimString).filter (fun v => v ≠ "") := by
        simp [List.filter_cons, he]
      rw [hfil]
      exact ih acc
    · have hfil : ((trimString r :: rs.map trimString).filter (fun v => v ≠ "")) =
          trimString r :: (rs.map trimString).filter (fun v => v ≠ "") := by
        simp [List.filter_cons, he]
      rw [hfil]
      simp only [List.foldl_cons]
      have hstep : variablesStep acc r =
          if ¬ acc.contains (trimString r) then acc ++ [trimString r] else acc := by
        unfold variablesStep
        by_cases hc : acc.contains (trimString r)
        · simp [he, hc]
        · simp [he, hc]
      rw [hstep]
      exact ih _

/-- C7: the text node's derived handle-id list coincides, for every text, with
the spec's reference pipeline (trim each scanned name, discard empty ones,
de-duplicate keeping first-seen order, append the fixed `output` id last);
and the worked example derives `["name", "age", "output"]`. -/
theorem textNode.handleIds_match_spec :
    (∀ text : String, textNodeHandleIds text = specHandleIds text) ∧
    textNodeHandleIds "Hello {{name}}, you are {{age}} and {{name}} again" =
      ["name", "age", "output"] := by
  constructor
  · intro text
    unfold textNodeHandleIds textNodeHandles specHandleIds textVariables dedupFirstSeen
    rw [variablesStep_fold_eq]
    simp [Function.comp_def]
  · decide

/-! ## Well-formedness of the history under arbitrary call sequences -/

theorem History.truncated_length_le {σ : Type} (h : History σ) :
    h.truncated.length ≤ h.entries.length := by
  unfold History.truncated
  split
  · simp
  · exact le_refl _

theorem History.truncated_length_pos {σ : Type} (h : History σ)
    (hidx : h.currentIndex < h.entries.length) : 0 < h.truncated.length := by
  unfold History.truncated
  split
  · rw [List.length_take]
    omega
  · omega

theorem History.truncated_get_exists {σ : Type} (h : History σ)
    (hidx : h.currentIndex < h.entries.length) :
    ∃ cur, h.truncated.get? h.currentIndex = some cur := by
  obtain ⟨cur, hcur⟩ : ∃ cur, h.entries.get? h.currentIndex = some cur :=
    ⟨_, List.get?_eq_get hidx⟩
  exact ⟨cur, History.truncated_get_self hcur⟩

theorem History.pushEntry_wf {σ : Type} (m : Nat) (l : List σ) (v : σ)
    (hm : 1 ≤ m) (_hpos : 0 < l.length) (hle : l.length ≤ m) :
    (History.pushEntry m l v).currentIndex < (History.pushEntry m l v).entries.length ∧
    (History.pushEntry m l v).entries.length ≤ m := by
  by_cases hgt : m < l.length + 1
  · rw [History.pushEntry_of_gt m l v (by omega)]
    simp only [List.length_drop, List.length_append, List.length_cons, List.length_nil]
    omega
  · rw [History.pushEntry_of_le m l v (by omega)]
    simp only [List.length_append, List.length_cons, List.length_nil]
    omega

theorem History.setState_wf {σ : Type} [DecidableEq σ] (m : Nat) (h : History σ) (v : σ)
    (hm : 1 ≤ m) (hidx : h.currentIndex < h.entries.length)
    (hlen : h.entries.length ≤ m) :
    (h.setState m v).currentIndex < (h.setState m v).entries.length ∧
    (h.setState m v).entries.length ≤ m := by
  obtain ⟨cur, hcur⟩ := History.truncated_get_exists h hidx
  have hpos := History.truncated_length_pos h hidx
  have hle := (History.truncated_length_le h).trans hlen
  unfold History.setState
  simp only [List.get?_eq_getElem?] at hcur
  simp only [List.get?_eq_getElem?, hcur]
  by_cases hv : v = cur
  · simp only [if_pos hv]
    exact ⟨hidx, hlen⟩
  · simp only [if_neg hv]
    exact History.pushEntry_wf m _ v hm hpos hle

theorem History.setStateF_wf {σ : Type} [DecidableEq σ] (m : Nat) (h : History σ)
    (f : σ → σ) (hm : 1 ≤ m) (hidx : h.currentIndex < h.entries.length)
    (hlen : h.entries.length ≤ m) :
    (h.setStateF m f).currentIndex < (h.setStateF m f).entries.length ∧
    (h.setStateF m f).entries.length ≤ m := by
  obtain ⟨cur, hcur⟩ := History.truncated_get_exists h hidx
  have hpos := History.truncated_length_pos h hidx
  have hle := (History.truncated_length_le h).trans hlen
  unfold History.setStateF
  simp only [List.get?_eq_getElem?] at hcur
  simp only [List.get?_eq_getElem?, hcur]
  by_cases hv : f cur = cur
  · simp only [if_pos hv]
    exact ⟨hidx, hlen⟩
  · simp only [if_neg hv]
    exact History.pushEntry_wf m _ (f cur) hm hpos hle

theorem applyOp_wf {σ : Type} [DecidableEq σ] (m : Nat) (init : σ) (h : History σ)
    (op : HistOp σ) (hm : 1 ≤ m)
    (hidx : h.currentIndex < h.entries.length) (hlen : h.entries.length ≤ m) :
    (applyOp m init h op).currentIndex < (applyOp m init h op).entries.length ∧
    (applyOp m init h op).entries.length ≤ m := by
  cases op with
  | set v => exact History.setState_wf m h v hm hidx hlen
  | setF f => exact History.setStateF_wf m h f hm hidx hlen
  | undo =>
    simp only [applyOp, History.undo]
    split
    · refine ⟨?_, ?_⟩
      · simp only
        omega
      · simpa using hlen
    · exact ⟨hidx, hlen⟩
  | redo =>
    simp only [applyOp, History.redo]
    split
    · rename_i hcond
      refine ⟨?_, ?_⟩
      · simp only
        omega
      · simpa using hlen
    · exact ⟨hidx, hlen⟩
  | clear =>
    simp only [applyOp, History.clearHistory]
    refine ⟨by simp, by simpa using hm⟩

theorem applyOps_wf {σ : Type} [DecidableEq σ] (m : Nat) (init : σ)
    (ops : List (HistOp σ)) (h : History σ) (hm : 1 ≤ m)
    (hidx : h.currentIndex < h.entries.length) (hlen : h.entries.length ≤ m) :
    (applyOps m init h ops).currentIndex < (applyOps m init h ops).entries.length ∧
    (applyOps m init h ops).entries.length ≤ m := by
  induction ops generalizing h with
  | nil => exact ⟨hidx, hlen⟩
  | cons op ops ih =>
    obtain ⟨h1, h2⟩ := applyOp_wf m init h op hm hidx hlen
    exact ih (applyOp m init h op) h1 h2

/-- C3: starting from the single-entry history, any sequence of `setState`
(value or updater form), `undo`, `redo` and `clearHistory` calls keeps
`historySize ≤ maxHistorySize`; and whenever a genuine append would overflow
the cap, the oldest entry of the (truncated) history is evicted and
`currentIndex` lands on the newly pushed tip, the last index. -/
theorem useHistory.size_bounded_and_eviction {σ : Type} [DecidableEq σ]
    (maxHistorySize : Nat) (init : σ) (ops : List (HistOp σ))
    (hm : 1 ≤ maxHistorySize) :
    (applyOps maxHistorySize init ⟨[init], 0⟩ ops).historySize ≤ maxHistorySize ∧
    (∀ (h : History σ) (v cur : σ),
      h.currentIndex < h.entries.length → h.entries.length ≤ maxHistorySize →
      h.truncated.get? h.currentIndex = some cur → v ≠ cur →
      maxHistorySize < h.truncated.length + 1 →
      (h.setState maxHistorySize v).entries = (h.truncated ++ [v]).drop 1 ∧
      (h.setState maxHistorySize v).currentIndex =
        (h.setState maxHistorySize v).entries.length - 1) := by
  constructor
  · exact (applyOps_wf maxHistorySize init ops ⟨[init], 0⟩ hm (by simp) (by simpa using hm)).2
  · intro h v cur hidx hlen hcur hne hover
    have hset : h.setState maxHistorySize v =
        { entries := (h.truncated ++ [v]).drop 1,
          currentIndex := h.truncated.length - 1 } := by
      unfold History.setState
      simp only [List.get?_eq_getElem?] at hcur
      simp only [List.get?_eq_getElem?, hcur, if_neg hne]
      exact History.pushEntry_of_gt _ _ _ hover
    rw [hset]
    refine ⟨rfl, ?_⟩
    simp only [List.length_drop, List.length_append, List.length_cons, List.length_nil]
    omega

/-- Closed instance of `useHistory.size_bounded_and_eviction` at cap 2:
two pushes onto a singleton history stay within the cap, and a push onto a
full two-entry history evicts the oldest entry with the index at the tip. -/
theorem useHistory.size_bounded_witness :
    (applyOps 2 (0 : Nat) ⟨[0], 0⟩ [HistOp.set 1, HistOp.set 2]).historySize ≤ 2 ∧
    ((⟨[0, 1], 1⟩ : History Nat).setState 2 5).entries =
      ((⟨[0, 1], 1⟩ : History Nat).truncated ++ [5]).drop 1 ∧
    ((⟨[0, 1], 1⟩ : History Nat).setState 2 5).currentIndex =
      ((⟨[0, 1], 1⟩ : History Nat).setState 2 5).entries.length - 1 := by
  have hthm := useHistory.size_bounded_and_eviction 2 (0 : Nat)
    [HistOp.set 1, HistOp.set 2] (by decide)
  exact ⟨hthm.1,
    (hthm.2 ⟨[0, 1], 1⟩ 5 1 (by decide) (by decide) rfl (by decide) (by decide)).1,
    (hthm.2 ⟨[0, 1], 1⟩ 5 1 (by decide) (by decide) rfl (by decide) (by decide)).2⟩

/-! ## Node-id generation across the session -/

theorem History.redo_of_atTip {σ : Type} (h : History σ) (htip : h.atTip) :
    h.redo = (false, h) := by
  unfold History.atTip at htip
  unfold History.redo
  rw [if_neg]
  omega

theorem History.setStateF_state_of_atTip {σ : Type} [DecidableEq σ] (m : Nat)
    (h : History σ) (f : σ → σ) (st : σ)
    (htip : h.atTip) (hst : h.state = some st) (hne : f st ≠ st) :
    (h.setStateF m f).atTip ∧ (h.setStateF m f).state = some (f st) := by
  have hlenpos : 0 < h.entries.length := by
    unfold History.atTip at htip
    omega
  have htr : h.truncated = h.entries := History.truncated_of_atTip htip
  have hget : h.entries.get? h.currentIndex = some st := hst
  have hset : h.setStateF m f = History.pushEntry m h.entries (f st) := by
    unfold History.setStateF
    simp only [List.get?_eq_getElem?] at hget
    simp only [htr, List.get?_eq_getElem?, hget, if_neg hne]
  rw [hset]
  unfold History.atTip at htip
  by_cases hgt : m < h.entries.length + 1
  · rw [History.pushEntry_of_gt m _ _ (by omega)]
    constructor
    · unfold History.atTip
      simp only [List.length_drop, List.length_append, List.length_cons, List.length_nil]
      omega
    · unfold History.state
      rw [List.drop_append_of_le_length (by omega)]
      have : (h.entries.drop 1).length = h.entries.length - 1 := by simp
      rw [show h.entries.length - 1 = (h.entries.drop 1).length from this.symm]
      exact List.get?_concat_length _ _
  · rw [History.pushEntry_of_le m _ _ (by omega)]
    constructor
    · unfold History.atTip
      simp
    · unfold History.state
      exact List.get?_concat_length _ _

/-- The spine of the no-undo sessions: the history stays at the tip, the tip
counter never decreases, every produced id is the decimal form of a counter
value in the window between start and final counter, and the produced ids are
pairwise distinct. -/
theorem runOps_noUndo_spec (ops : List EdOp) (h : History EditorState)
    (hnu : EdOp.undo ∉ ops) (htip : h.atTip) (st : EditorState)
    (hst : h.state = some st) :
    ∃ st' : EditorState,
      (runOps h ops).1.atTip ∧ (runOps h ops).1.state = some st' ∧
      st.nodeIdCounter ≤ st'.nodeIdCounter ∧
      (∀ s ∈ (runOps h ops).2, ∃ k, s = Nat.repr k ∧
        st.nodeIdCounter ≤ k ∧ k < st'.nodeIdCounter) ∧
      List.Pairwise (· ≠ ·) (runOps h ops).2 := by
  induction ops generalizing h st with
  | nil =>
    refine ⟨st, htip, hst, le_refl _, ?_, List.Pairwise.nil⟩
    intro s hs
    simp [runOps] at hs
  | cons op ops ih =>
    have hnu' : EdOp.undo ∉ ops := fun hc => hnu (List.mem_cons_of_mem _ hc)
    cases op with
    | undo => exact absurd (List.mem_cons_self _ _) hnu
    | redo =>
      have hstep : stepOp h EdOp.redo = (h, []) := by
        unfold stepOp
        rw [History.redo_of_atTip h htip]
      have hrun : runOps h (EdOp.redo :: ops) = runOps h ops := by
        simp only [runOps, hstep, List.nil_append]
      rw [hrun]
      exact ih h hnu' htip st hst
    | addNode t p =>
      set newNode : Node :=
        { id := Nat.repr st.nodeIdCounter, ntype := t, position := p,
          data := getDefaultNodeData t } with hnewNode
      set f : EditorState → EditorState := fun prev =>
        { prev with
          nodes := st.nodes ++ [newNode],
          nodeIdCounter := st.nodeIdCounter + 1 } with hf
      have hfne : f st ≠ st := by
        intro hc
        have := congrArg EditorState.nodeIdCounter hc
        simp [hf] at this
      have hstep : stepOp h (EdOp.addNode t p) =
          (h.setStateF editorMaxHistorySize f, [Nat.repr st.nodeIdCounter]) := by
        unfold stepOp
        rw [hst]
      obtain ⟨htip1, hst1⟩ :=
        History.setStateF_state_of_atTip editorMaxHistorySize h f st htip hst hfne
      obtain ⟨st', htip', hst', hmono, hids, hpw⟩ :=
        ih (h.setStateF editorMaxHistorySize f) hnu' htip1 (f st) hst1
      have hctr1 : (f st).nodeIdCounter = st.nodeIdCounter + 1 := by simp [hf]
      have hrun : runOps h (EdOp.addNode t p :: ops) =
          ((runOps (h.setStateF editorMaxHistorySize f) ops).1,
            Nat.repr st.nodeIdCounter ::
              (runOps (h.setStateF editorMaxHistorySize f) ops).2) := by
        simp only [runOps, hstep, List.singleton_append]
      rw [hrun]
      refine ⟨st', htip', hst', by omega, ?_, ?_⟩
      · intro s hs
        rcases List.mem_cons.mp hs with hs | hs
        · exact ⟨st.nodeIdCounter, hs, le_refl _, by omega⟩
        · obtain ⟨k, hk, hk1, hk2⟩ := hids s hs
          exact ⟨k, hk, by omega, hk2⟩
      · refine List.Pairwise.cons ?_ hpw
        intro s hs hcontra
        obtain ⟨k, hk, hk1, _⟩ := hids s hs
        rw [hk] at hcontra
        have := natRepr_injective hcontra
        omega

/-- C1 counterexample: in the session add-node, undo, add-node the two
`addNode` calls both produce the id `"4"` — the counter is part of the
history-tracked state and `undo` rolls it back, so ids are reused. -/
theorem nodeEditor.addNode_id_reused_after_undo :
    (runOps initHistory
      [EdOp.addNode "textNode" ⟨0, 0⟩, EdOp.undo, EdOp.addNode "textNode" ⟨0, 0⟩]).2 =
      ["4", "4"] ∧
    ¬ List.Pairwise (fun a b => a ≠ b)
      (runOps initHistory
        [EdOp.addNode "textNode" ⟨0, 0⟩, EdOp.undo, EdOp.addNode "textNode" ⟨0, 0⟩]).2 := by
  constructor
  · decide
  · decide

/-- C1 amended: in any session of `addNode` and `redo` operations — no undo —
no two `addNode` calls produce the same node id.  (After an `undo` the counter
is rolled back with the state and an id can be reused, as the counterexample
shows.) -/
theorem nodeEditor.addNode_ids_distinct_without_undo (ops : List EdOp)
    (hnu : EdOp.undo ∉ ops) :
    List.Pairwise (· ≠ ·) (runOps initHistory ops).2 := by
  obtain ⟨st', _, _, _, _, hpw⟩ :=
    runOps_noUndo_spec ops initHistory hnu rfl initialState rfl
  exact hpw

/-- Closed instance of `nodeEditor.addNode_ids_distinct_without_undo`: two
consecutive `addNode` calls yield the distinct ids `"4"` and `"5"`. -/
theorem nodeEditor.addNode_ids_distinct_without_undo_witness :
    List.Pairwise (· ≠ ·)
      (runOps initHistory
        [EdOp.addNode "textNode" ⟨0, 0⟩, EdOp.addNode "llmNode" ⟨1, 1⟩]).2 :=
  nodeEditor.addNode_ids_distinct_without_undo
    [EdOp.addNode "textNode" ⟨0, 0⟩, EdOp.addNode "llmNode" ⟨1, 1⟩] (by decide)

/-! ## The drag gesture and its single commit -/

theorem History.setStateF_noop {σ : Type} [DecidableEq σ] (m : Nat) (h : History σ)
    (f : σ → σ) (cur : σ)
    (hcur : h.entries.get? h.currentIndex = some cur) (hf : f cur = cur) :
    h.setStateF m f = h := by
  have htr := History.truncated_get_self hcur
  simp only [List.get?_eq_getElem?] at htr
  unfold History.setStateF
  simp [htr, hf]

theorem History.setStateF_push_of_atTip {σ : Type} [DecidableEq σ] (m : Nat)
    (h : History σ) (f : σ → σ) (st : σ)
    (htip : h.atTip) (hst : h.state = some st) (hne : f st ≠ st)
    (hcap : h.entries.length < m) :
    (h.setStateF m f).entries = h.entries ++ [f st] ∧
    (h.setStateF m f).state = some (f st) ∧
    (h.setStateF m f).atTip := by
  have htr : h.truncated = h.entries := History.truncated_of_atTip htip
  have hget : h.entries.get? h.currentIndex = some st := hst
  have hset : h.setStateF m f = History.pushEntry m h.entries (f st) := by
    unfold History.setStateF
    simp only [List.get?_eq_getElem?] at hget
    simp only [htr, List.get?_eq_getElem?, hget, if_neg hne]
  rw [hset, History.pushEntry_of_le m _ _ (by omega)]
  refine ⟨rfl, ?_, ?_⟩
  · unfold History.state
    exact List.get?_concat_length _ _
  · unfold History.atTip
    simp

theorem applyPosChange_position (ns : List Node) (c : PosChange) :
    ∀ n ∈ applyPosChange ns c, n.id = c.nodeId → n.position = c.position := by
  intro n hn hid
  unfold applyPosChange at hn
  obtain ⟨m, _, hmn⟩ := List.mem_map.mp hn
  by_cases hc : m.id = c.nodeId
  · rw [if_pos hc] at hmn
    rw [← hmn]
  · rw [if_neg hc] at hmn
    rw [← hmn] at hid
    exact absurd hid hc

theorem processFrames_hist (sys : EditorSys) (frames : List PosChange)
    (hdrag : ∀ c ∈ frames, c.dragging = true) :
    (processFrames sys frames).hist = sys.hist := by
  induction frames generalizing sys with
  | nil => rfl
  | cons c cs ih =>
    have hc : c.dragging = true := hdrag c (List.mem_cons_self _ _)
    have hstep : handleNodesChange sys [c] = { sys with rfNodes := applyPosChange sys.rfNodes c } := by
      unfold handleNodesChange
      simp [hc]
    have : processFrames sys (c :: cs) =
        processFrames { sys with rfNodes := applyPosChange sys.rfNodes c } cs := by
      unfold processFrames
      simp only [List.foldl_cons, hstep]
    rw [this]
    exact ih _ (fun d hd => hdrag d (List.mem_cons_of_mem _ hd))

theorem handleNodesChange_release (sys : EditorSys) (i : String) (p : Pos) :
    handleNodesChange sys [⟨i, p, false⟩] =
      { hist := sys.hist.setStateF editorMaxHistorySize
          (fun prev => { prev with nodes := applyPosChange sys.rfNodes ⟨i, p, false⟩ }),
        rfNodes := applyPosChange sys.rfNodes ⟨i, p, false⟩ } := by
  unfold handleNodesChange
  simp

/-- C8 amended: in a drag gesture (frames with `dragging = true`, then one
release frame) the intermediate frames never touch history; the release-time
mirror carries the dragged node at the release position; and the release
commits the mirror to history — as exactly one appended entry when the
committed state differs from the canonical tip, and as no entry at all when
the release restores the canonical state (e.g. the node returns to its
starting position), which is the one deviation from the claim. -/
theorem nodeEditor.drag_commit_once (sys : EditorSys) (frames : List PosChange)
    (i : String) (p : Pos) (st0 : EditorState)
    (hdrag : ∀ c ∈ frames, c.dragging = true)
    (htip : sys.hist.atTip)
    (hcap : sys.hist.entries.length < editorMaxHistorySize)
    (hst : sys.hist.state = some st0) :
    (processFrames sys frames).hist = sys.hist ∧
    (∀ n ∈ (handleNodesChange (processFrames sys frames) [⟨i, p, false⟩]).rfNodes,
      n.id = i → n.position = p) ∧
    ({ st0 with
        nodes := (handleNodesChange (processFrames sys frames) [⟨i, p, false⟩]).rfNodes } =
          st0 →
      (handleNodesChange (processFrames sys frames) [⟨i, p, false⟩]).hist = sys.hist) ∧
    ({ st0 with
        nodes := (handleNodesChange (processFrames sys frames) [⟨i, p, false⟩]).rfNodes } ≠
          st0 →
      (handleNodesChange (processFrames sys frames) [⟨i, p, false⟩]).hist.entries =
        sys.hist.entries ++
          [{ st0 with
              nodes := (handleNodesChange (processFrames sys frames)
                [⟨i, p, false⟩]).rfNodes }] ∧
      (handleNodesChange (processFrames sys frames) [⟨i, p, false⟩]).hist.state =
        some { st0 with
          nodes := (handleNodesChange (processFrames sys frames)
            [⟨i, p, false⟩]).rfNodes }) := by
  have hmid : (processFrames sys frames).hist = sys.hist :=
    processFrames_hist sys frames hdrag
  have hrel := handleNodesChange_release (processFrames sys frames) i p
  refine ⟨hmid, ?_, ?_, ?_⟩
  · intro n hn hid
    rw [hrel] at hn
    exact applyPosChange_position _ _ n hn hid
  · intro heq
    rw [hrel] at heq ⊢
    simp only at heq ⊢
    rw [hmid]
    exact History.setStateF_noop editorMaxHistorySize sys.hist _ st0 hst heq
  · intro hne
    rw [hrel] at hne ⊢
    simp only at hne ⊢
    rw [hmid]
    obtain ⟨he, hs, _⟩ :=
      History.setStateF_push_of_atTip editorMaxHistorySize sys.hist
        (fun prev =>
          { prev with
            nodes := applyPosChange (processFrames sys frames).rfNodes ⟨i, p, false⟩ })
        st0 htip hst hne hcap
    exact ⟨he, hs⟩

/-- C8 counterexample: a drag of node 1 through the intermediate position
(200, 200) released back at its original (100, 100) creates no history entry
at all (size stays 1), not the "exactly one" the claim demands. -/
theorem nodeEditor.drag_commit_no_entry_when_released_at_start :
    (handleNodesChange
        (processFrames { hist := initHistory, rfNodes := initialNodes }
          [⟨"1", ⟨200, 200⟩, true⟩])
        [⟨"1", ⟨100, 100⟩, false⟩]).hist.historySize = 1 ∧
    initHistory.historySize = 1 := by
  constructor
  · decide
  · decide

/-- Closed instance of `nodeEditor.drag_commit_once`: dragging node 1 through
(200, 200) and releasing at (300, 300) appends exactly the committed state. -/
theorem nodeEditor.drag_commit_once_witness :
    (handleNodesChange
        (processFrames { hist := initHistory, rfNodes := initialNodes }
          [⟨"1", ⟨200, 200⟩, true⟩])
        [⟨"1", ⟨300, 300⟩, false⟩]).hist.entries =
      initHistory.entries ++
        [{ initialState with
            nodes := (handleNodesChange
              (processFrames { hist := initHistory, rfNodes := initialNodes }
                [⟨"1", ⟨200, 200⟩, true⟩])
              [⟨"1", ⟨300, 300⟩, false⟩]).rfNodes }] := by
  have hthm := nodeEditor.drag_commit_once
    { hist := initHistory, rfNodes := initialNodes }
    [⟨"1", ⟨200, 200⟩, true⟩] "1" ⟨300, 300⟩ initialState
    (by decide) rfl (by decide) rfl
  exact (hthm.2.2.2 (by decide)).1
